import Mathlib

/-!
Verification development for the `ble_ws_service` package: a WebSocket
front-end (`ws_server.py`) over a debouncing lock-state aggregator
(`lock_manager.py`) that drives per-device BLE adapters (`ble_lock.py`).

The Python source is shallowly embedded below: pure request/message
handling becomes pure Lean functions; the asyncio-based aggregator and the
global BLE-operation semaphore become explicit small-step state machines
whose atomic steps correspond to the synchronous slices between `await`
points in the source.
-/

namespace BleWs

/-! ## Status enumerations (from the external `yalexs_ble` library)

`LockStatus` and `DoorStatus` are enumerations delivered by the device
library.  `lock_manager._on_state` treats `LOCKED`/`UNLOCKED` and
`OPENED`/`CLOSED` as the stable values and everything else (unknown,
in-motion, jammed, ajar, ...) as transient. -/

inductive LockStatus where
  | locked
  | unlocked
  | locking
  | unlocking
  | jammed
  | unknown
deriving DecidableEq, Repr

inductive DoorStatus where
  | opened
  | closed
  | ajar
  | unknown
deriving DecidableEq, Repr

/-- Embedding of `stable_lock = lock_status if lock_status in (LockStatus.LOCKED,
LockStatus.UNLOCKED) else None` (lock_manager.py:90-92). -/
def stable_lock (s : LockStatus) : Option LockStatus :=
  if s = .locked ∨ s = .unlocked then some s else none

/-- Embedding of `stable_door = door_status if door_status in (DoorStatus.OPENED,
DoorStatus.CLOSED) else None` (lock_manager.py:93-95). -/
def stable_door (s : DoorStatus) : Option DoorStatus :=
  if s = .opened ∨ s = .closed then some s else none

/-! ## WebSocket handshake authentication (`ws_server.WebSocketServer._process_request`)

The handler receives the configured auth token (`None` or a string; Python
treats the empty string as falsy, so `if not self._auth_token` accepts
both) and the value of the `Authorization` request header (`None` when the
header is absent).  It returns `none` to accept the handshake or an HTTP
status rejecting it before the upgrade. -/

inductive HandshakeResult where
  | accepted
  | unauthorized
  | forbidden
deriving DecidableEq, Repr

/-- Python truthiness of an optional string: `None` and `""` are falsy. -/
def strFalsy : Option String → Bool
  | none => true
  | some s => s = ""

/-- Python whitespace characters stripped by `str.strip()` (ASCII range). -/
def pyIsSpace (c : Char) : Bool :=
  c = ' ' ∨ c = '\t' ∨ c = '\n' ∨ c = '\r' ∨ c = '\x0b' ∨ c = '\x0c'

/-- Python `str.strip()`: remove leading and trailing whitespace. -/
def pyStrip (s : String) : String :=
  ⟨((s.toList.dropWhile pyIsSpace).reverse.dropWhile pyIsSpace).reverse⟩

/-- Python `str.startswith(p)`. -/
def pyStartsWith (s p : String) : Bool :=
  p.toList.isPrefixOf s.toList

/-- Python `s[n:]`, used to model `str.removeprefix` once the prefix is known
to be present ("Bearer " has 7 characters). -/
def pyDrop (s : String) (n : Nat) : String :=
  ⟨s.toList.drop n⟩

/-- Embedding of `WebSocketServer._process_request` (ws_server.py:79-107).
`auth_token` is the configured token, `auth_header` the raw value of the
`Authorization` header. -/
def process_request (auth_token : Option String) (auth_header : Option String) :
    HandshakeResult :=
  if strFalsy auth_token then
    .accepted
  else if strFalsy auth_header ∨ ¬ pyStartsWith (auth_header.getD "") "Bearer " then
    .unauthorized
  else
    -- token = auth_header.removeprefix("Bearer ").strip()
    let token := pyStrip (pyDrop (auth_header.getD "") 7)
    if token ≠ auth_token.getD "" then .forbidden else .accepted

/-! ## WebSocket message handling (`ws_server.WebSocketServer._handler` / `_handle_message`)

A parsed client message is a JSON object; `msg.get(k)` yields `None` for a
missing key, modelled by `Option String` fields. -/

structure Msg where
  type : Option String
  request_id : Option String
  command : Option String
  lock_name : Option String
deriving DecidableEq, Repr

/-- Payload of a successful response (`_send_ok`'s `data`). -/
inductive RespData where
  | locks (names : List String)
  | lockAck (lock_name : String)
  | unlockAck (lock_name : String)
  | snapshot (lock_name : String)
deriving DecidableEq, Repr

/-- A structured response frame sent back to the client (`_send_ok` /
`_send_error`): both shapes carry the echoed `request_id`. -/
inductive Reply where
  | ok (request_id : Option String) (data : RespData)
  | error (request_id : Option String) (error : String)
deriving DecidableEq, Repr

/-- Side effects `_handle_message` performs on the device layer.  The
`lock`/`unlock` branches (ws_server.py:210, 219) call
`self._lock_manager.get_lock(lock_name).lock()` / `.unlock()` — a direct
call on the `BleLock` adapter, not `cmd_lock`/`cmd_unlock`, so no
acquisition of the manager's `_ble_op_sem` happens on this path. -/
inductive Effect where
  | adapter_lock (lock_name : String)
  | adapter_unlock (lock_name : String)
  | adapter_snapshot (lock_name : String)
deriving DecidableEq, Repr

/-- Python `str(KeyError(name))` as produced by `self._locks[lock_name]`
on a missing key and rendered by `_send_error(..., error=str(exc))`. -/
def keyErrorStr (name : String) : String := "'" ++ name ++ "'"

/-- Embedding of `WebSocketServer._handle_message` (ws_server.py:179-244)
over the registry of registered lock names (`LockManager._locks` keys).
Returns the reply sent to the client and the device-layer effects
performed.  Exceptions raised inside the command dispatch (the
`ValueError`s and the registry `KeyError`) are caught by the
`except Exception` clause and turned into error replies. -/
def handle_message (registry : List String) (m : Msg) : Reply × List Effect :=
  if m.type ≠ some "command" then
    (.error m.request_id "type_must_be_command", [])
  else if m.command = some "list_locks" then
    (.ok m.request_id (.locks registry), [])
  else if (m.command = some "lock" ∨ m.command = some "unlock" ∨
      m.command = some "get_state") ∧ strFalsy m.lock_name then
    (.error m.request_id "lock_name is required", [])
  else if m.command = some "lock" then
    let name := m.lock_name.getD ""
    if name ∈ registry then
      (.ok m.request_id (.lockAck name), [.adapter_lock name])
    else
      (.error m.request_id (keyErrorStr name), [])
  else if m.command = some "unlock" then
    let name := m.lock_name.getD ""
    if name ∈ registry then
      (.ok m.request_id (.unlockAck name), [.adapter_unlock name])
    else
      (.error m.request_id (keyErrorStr name), [])
  else if m.command = some "get_state" then
    let name := m.lock_name.getD ""
    if name ∈ registry then
      (.ok m.request_id (.snapshot name), [.adapter_snapshot name])
    else
      (.error m.request_id (keyErrorStr name), [])
  else
    (.error m.request_id ("unknown_command: " ++ (m.command.getD "None")), [])

/-- One inbound text frame as seen by `_handler` (ws_server.py:158-170):
either text that fails `json.loads` (a `JSONDecodeError`), or valid JSON
that is not an object (then `msg.get` raises `AttributeError`, which
escapes `_handle_message` and is caught by the handler's outer
`except Exception`, ending the receive loop), or a parsed object. -/
inductive Frame where
  | textInvalid (raw : String)
  | textNonObject
  | textMsg (m : Msg)
deriving DecidableEq, Repr

/-- One iteration of the `async for raw in websocket` loop: the reply sent
(if any) and whether the loop continues to the next frame. -/
def handler_step (registry : List String) : Frame → Option Reply × Bool
  | .textInvalid _ => (some (.error none "invalid_json"), true)
  | .textNonObject => (none, false)
  | .textMsg m => (some (handle_message registry m).1, true)

/-- The receive loop of `_handler`: process frames in order, stopping when
an iteration ends the loop. -/
def handler_run (registry : List String) : List Frame → List Reply
  | [] => []
  | f :: fs =>
    match handler_step registry f with
    | (r, true) => r.toList ++ handler_run registry fs
    | (r, false) => r.toList

/-! ## Lock registration (`LockManager.add_lock`, lock_manager.py:69-129)

A registered `BleLock` is identified by `lock_name`; `listeners` counts the
state listeners attached by `register_state_listener` (ble_lock.py:52-53).
The manager registry `self._locks` is an insertion-ordered dict, modelled
as an association list. -/

structure BleLock where
  lock_name : String
  serial : String
  address : String
  listeners : Nat
deriving DecidableEq, Repr

/-- Embedding of `LockManager.add_lock`.  Returns the raised exception
message (if any), the registry after the call, and the argument lock after
the call (on success `register_state_listener` attached the manager's
`_on_state` listener to it; on the duplicate-name path the method raises
before the registry assignment and before the listener hookup). -/
def add_lock (locks : List (String × BleLock)) (lk : BleLock) :
    Option String × List (String × BleLock) × BleLock :=
  if (locks.lookup lk.lock_name).isSome then
    (some ("Duplicate lock_name: " ++ lk.lock_name), locks, lk)
  else
    let lk' := { lk with listeners := lk.listeners + 1 }
    (none, locks ++ [(lk.lock_name, lk')], lk')

/-- Embedding of `LockManager.get_lock_names` (lock_manager.py:230-231). -/
def get_lock_names (locks : List (String × BleLock)) : List String :=
  locks.map Prod.fst

/-- Embedding of `LockManager.get_lock` (lock_manager.py:233-234):
`self._locks[lock_name]`, `none` standing for the raised `KeyError`. -/
def get_lock (locks : List (String × BleLock)) (lock_name : String) :
    Option BleLock :=
  locks.lookup lock_name

/-! ## BLE command serialization (`LockManager._ble_op_sem` / `_with_ble_lock`)

`lock_manager.py:52-54` creates `asyncio.Semaphore(1)`;
`_with_ble_lock` (lock_manager.py:134-144) wraps every `cmd_lock` /
`cmd_unlock` / `cmd_refresh` body in `async with self._ble_op_sem`.  The
WebSocket server's `lock`/`unlock` command branches (ws_server.py:210,219)
instead call the `BleLock` adapter directly, without entering
`_with_ble_lock`.  The machine below models the asyncio tasks that execute
device operations: a `serialized` operation must acquire the semaphore
before it runs and releases it when it completes; a `direct` operation
(the WebSocket path) runs without touching the semaphore. -/

inductive OpKind where
  | serialized
  | direct
deriving DecidableEq, Repr

inductive OpPhase where
  | waiting
  | running
  | finished
deriving DecidableEq, Repr

/-- A device operation task, identified by a creation index. -/
structure OpRec where
  dev : String
  op_name : String
  kind : OpKind
  phase : OpPhase
deriving DecidableEq, Repr

structure SemState where
  sem : Nat
  ops : Nat → Option OpRec
  nextId : Nat

/-- Initial state: `asyncio.Semaphore(1)`, no operations yet. -/
def semInit : SemState := { sem := 1, ops := fun _ => none, nextId := 0 }

inductive SemAct where
  | spawnCmd (dev op_name : String)
  | spawnWs (dev op_name : String)
  | acquire (i : Nat)
  | startDirect (i : Nat)
  | finish (i : Nat)
deriving DecidableEq, Repr

/-- Pointwise update of an id-keyed store. -/
def updN {α : Type} (f : Nat → α) (k : Nat) (v : α) : Nat → α :=
  fun n => if n = k then v else f n

/-- One scheduling step of the operation machine.  `spawnCmd` is a task
entering `_with_ble_lock`; `acquire` is the `async with self._ble_op_sem`
entry, enabled only while the semaphore counter is positive; `finish`
runs the operation to completion and, for a serialized operation, performs
the semaphore release of the `async with` exit.  `spawnWs`/`startDirect`
model the WebSocket `lock`/`unlock` branches, which start the adapter call
without ever touching the semaphore. -/
def semStep (s : SemState) : SemAct → Option SemState
  | .spawnCmd dev op_name =>
    some { s with
      ops := updN s.ops s.nextId (some ⟨dev, op_name, .serialized, .waiting⟩),
      nextId := s.nextId + 1 }
  | .spawnWs dev op_name =>
    some { s with
      ops := updN s.ops s.nextId (some ⟨dev, op_name, .direct, .waiting⟩),
      nextId := s.nextId + 1 }
  | .acquire i =>
    match s.ops i with
    | some o =>
      if o.kind = .serialized ∧ o.phase = .waiting ∧ 0 < s.sem then
        some { s with
          sem := s.sem - 1,
          ops := updN s.ops i (some { o with phase := .running }) }
      else none
    | none => none
  | .startDirect i =>
    match s.ops i with
    | some o =>
      if o.kind = .direct ∧ o.phase = .waiting then
        some { s with ops := updN s.ops i (some { o with phase := .running }) }
      else none
    | none => none
  | .finish i =>
    match s.ops i with
    | some o =>
      if o.phase = .running then
        some { s with
          ops := updN s.ops i (some { o with phase := .finished }),
          sem := if o.kind = .serialized then s.sem + 1 else s.sem }
      else none
    | none => none

def semRun (s : SemState) : List SemAct → Option SemState
  | [] => some s
  | a :: as =>
    match semStep s a with
    | some s' => semRun s' as
    | none => none

def SemReachable (s : SemState) : Prop :=
  ∃ acts, semRun semInit acts = some s


/-! ## State aggregator (`LockManager._on_state` / `_schedule_state_settle` / `_settle`)

The aggregator is a collection of asyncio tasks sharing the manager's
per-device dictionaries.  Its atomic steps are the synchronous slices
between `await` points of the source:

* `observe`: one invocation of the `_on_state` listener body
  (lock_manager.py:81-127) including, on a detected change,
  `_schedule_state_settle` (lock_manager.py:161-225) — cancel of the old
  task, creation of the new one, update of `_pending_tasks`;
* `startTask`: the new task's coroutine body begins: it reads
  `self._pending_reason.get(lock_name)` and picks the debounce delay
  (lock_manager.py:174-179), then suspends in `await asyncio.sleep(delay)`;
* `wakeDebounce`: the debounce sleep returns (the task was not cancelled):
  commit `_critical_state`, build the event, broadcast it, then suspend in
  `await asyncio.sleep(REFRESH_AFTER_SECONDS)` (lock_manager.py:184-210);
* `wakeRefresh`: the reconciliation sleep returns: issue `cmd_refresh`,
  then run the `finally` cleanup (lock_manager.py:211-225);
* `unwind`: a cancelled task resumes with `asyncio.CancelledError`: the
  `except` branch logs and the `finally` cleanup runs (lock_manager.py:214-225).

`asyncio.Task.cancel()` takes effect at the task's next suspension point,
so a task cancelled while sleeping performs none of the code after that
sleep. -/

/-- The `(Optional[LockStatus], Optional[DoorStatus])` pairs stored in
`_critical_state` and `_pending_state`. -/
abbrev StatePair := Option LockStatus × Option DoorStatus

/-- `LockManager.LOCK_DEBOUNCE_SECONDS = 2.0` (lock_manager.py:31). -/
def LOCK_DEBOUNCE_SECONDS : ℚ := 2

/-- `LockManager.DOOR_DEBOUNCE_SECONDS = 0.5` (lock_manager.py:32). -/
def DOOR_DEBOUNCE_SECONDS : ℚ := 1/2

/-- `LockManager.REFRESH_AFTER_SECONDS = 8.0` (lock_manager.py:33). -/
def REFRESH_AFTER_SECONDS : ℚ := 8

/-- Where a settle task's coroutine currently is.  `created`: the task
object exists but its body has not started; `debouncing`: sleeping the
debounce delay computed from the reason read at body start; `refreshWait`:
committed and broadcast, sleeping before the reconciliation refresh;
`cancelling`: `cancel()` was requested and the coroutine has not yet
unwound; `done`: the coroutine finished (its `finally` ran). -/
inductive Phase where
  | created
  | debouncing (delay : ℚ) (startReason : Option String)
  | refreshWait
  | cancelling
  | done
deriving DecidableEq, Repr

/-- Phases of a task that is still alive (not cancelled, not finished). -/
def Phase.isLive : Phase → Bool
  | .created => true
  | .debouncing _ _ => true
  | .refreshWait => true
  | .cancelling => false
  | .done => false

/-- A settle task (an `asyncio.Task` created by `_schedule_state_settle`),
identified by a unique creation index that stands for Python object
identity (`is`). -/
structure TaskRec where
  dev : String
  phase : Phase
deriving DecidableEq, Repr

/-- A settle event broadcast by `_settle` (lock_manager.py:194-207),
attributed to the emitting task; `state` records the committed pair merged
into the snapshot. -/
structure SettleEvent where
  taskId : Nat
  lock_name : String
  state : StatePair
deriving DecidableEq, Repr

/-- The manager's aggregation state: the four per-device dictionaries of
`LockManager.__init__` (lock_manager.py:41-50), the set of settle tasks
ever created, and logs of the externally visible side effects. -/
structure AggState where
  critical_state : String → Option StatePair
  pending_state : String → Option StatePair
  pending_reason : String → Option String
  pending_tasks : String → Option Nat
  tasks : Nat → Option TaskRec
  events : List SettleEvent
  refreshes : List (Nat × String)
  nextId : Nat

def aggInit : AggState :=
  { critical_state := fun _ => none
    pending_state := fun _ => none
    pending_reason := fun _ => none
    pending_tasks := fun _ => none
    tasks := fun _ => none
    events := []
    refreshes := []
    nextId := 0 }

inductive AggAct where
  | observe (dev : String) (lockSt : LockStatus) (doorSt : DoorStatus)
  | startTask (i : Nat)
  | wakeDebounce (i : Nat)
  | wakeRefresh (i : Nat)
  | unwind (i : Nat)
deriving DecidableEq, Repr

/-- Pointwise update of a keyed dictionary. -/
def upd {κ α : Type} [DecidableEq κ] (f : κ → α) (k : κ) (v : α) : κ → α :=
  fun n => if n = k then v else f n

def setTaskPhase (s : AggState) (i : Nat) (p : Phase) : Nat → Option TaskRec :=
  upd s.tasks i ((s.tasks i).map (fun t => { t with phase := p }))

/-- The `lock_changed` test (lock_manager.py:103): the incoming lock axis
is stable and differs from the baseline (a Python `!=` between a
`LockStatus` and an `Optional[LockStatus]`). -/
def lock_changed (incoming : LockStatus) (baseLock : Option LockStatus) : Bool :=
  match stable_lock incoming with
  | none => false
  | some v => baseLock ≠ some v

/-- The `door_changed` test (lock_manager.py:104). -/
def door_changed (incoming : DoorStatus) (baseDoor : Option DoorStatus) : Bool :=
  match stable_door incoming with
  | none => false
  | some v => baseDoor ≠ some v

/-- The comparison baseline of `_on_state` (lock_manager.py:98-101):
`self._pending_state.get(lock_name, self._critical_state.get(lock_name, (None, None)))`. -/
def observeBaseline (s : AggState) (dev : String) : StatePair :=
  (s.pending_state dev).getD ((s.critical_state dev).getD (none, none))

/-- The debounce delay picked at the start of `_settle`
(lock_manager.py:174-179) from the current pending reason. -/
def settleDelay (reason : Option String) : ℚ :=
  if reason = some "door" then DOOR_DEBOUNCE_SECONDS else LOCK_DEBOUNCE_SECONDS

/-- Cancellation of the previously tracked task (lock_manager.py:164-167):
`old_task.cancel()` moves a not-yet-finished task into the cancelling
state; a finished task is left alone (`not old_task.done()`). -/
def cancelPhase : Phase → Phase
  | .done => .done
  | _ => .cancelling

/-- The cancel half of `_schedule_state_settle` (lock_manager.py:164-167):
request cancellation of the task currently tracked for this device. -/
def cancelTracked (s : AggState) (dev : String) : Nat → Option TaskRec :=
  match s.pending_tasks dev with
  | some j => upd s.tasks j ((s.tasks j).map
      (fun t => { t with phase := cancelPhase t.phase }))
  | none => s.tasks

/-- Embedding of `_schedule_state_settle` (lock_manager.py:161-225 minus
the task body): cancel the old tracked task, create the new settle task
and track it. -/
def scheduleSettle (s : AggState) (dev : String) : AggState :=
  { s with
    pending_tasks := upd s.pending_tasks dev (some s.nextId)
    tasks := upd (cancelTracked s dev) s.nextId (some ⟨dev, .created⟩)
    nextId := s.nextId + 1 }

/-- One atomic step of the aggregator.  `none` means the action is not
enabled in this state (no such task, or its coroutine is not at the
corresponding suspension point). -/
def aggStep (s : AggState) : AggAct → Option AggState
  | .observe dev lockSt doorSt =>
    let prev := observeBaseline s dev
    let sl := stable_lock lockSt
    let sd := stable_door doorSt
    let lockCh := lock_changed lockSt prev.1
    let doorCh := door_changed doorSt prev.2
    if ¬ lockCh ∧ ¬ doorCh then
      -- duplicate candidate state: logged and ignored (lock_manager.py:106-113)
      some s
    else
      -- merge the candidate state (lock_manager.py:116-119)
      let newPending : StatePair :=
        (match sl with | some v => some v | none => prev.1,
         match sd with | some v => some v | none => prev.2)
      -- door wins debounce priority (lock_manager.py:122-125)
      let newReason : String := if doorCh then "door" else "lock"
      some (scheduleSettle
        { s with
          pending_state := upd s.pending_state dev (some newPending)
          pending_reason := upd s.pending_reason dev (some newReason) }
        dev)
  | .startTask i =>
    match s.tasks i with
    | some t =>
      if t.phase = .created then
        let reason := s.pending_reason t.dev
        some { s with tasks := setTaskPhase s i (.debouncing (settleDelay reason) reason) }
      else none
    | none => none
  | .wakeDebounce i =>
    match s.tasks i with
    | some t =>
      match t.phase with
      | .debouncing _ _ =>
        -- commit and broadcast (lock_manager.py:184-207)
        let pair := (s.pending_state t.dev).getD (none, none)
        some { s with
          critical_state := upd s.critical_state t.dev (some pair)
          tasks := setTaskPhase s i .refreshWait
          events := s.events ++ [⟨i, t.dev, pair⟩] }
      | _ => none
    | none => none
  | .wakeRefresh i =>
    match s.tasks i with
    | some t =>
      if t.phase = .refreshWait then
        -- issue the reconciliation refresh, then the finally cleanup
        -- (lock_manager.py:210-225)
        let s' := { s with
          refreshes := s.refreshes ++ [(i, t.dev)]
          tasks := setTaskPhase s i .done }
        if s.pending_tasks t.dev = some i then
          some { s' with
            pending_tasks := upd s'.pending_tasks t.dev none
            pending_reason := upd s'.pending_reason t.dev none }
        else
          some s'
      else none
    | none => none
  | .unwind i =>
    match s.tasks i with
    | some t =>
      if t.phase = .cancelling then
        -- CancelledError handler + finally cleanup (lock_manager.py:214-225)
        let s' := { s with tasks := setTaskPhase s i .done }
        if s.pending_tasks t.dev = some i then
          some { s' with
            pending_tasks := upd s'.pending_tasks t.dev none
            pending_reason := upd s'.pending_reason t.dev none }
        else
          some s'
      else none
    | none => none

def aggRun (s : AggState) : List AggAct → Option AggState
  | [] => some s
  | a :: as =>
    match aggStep s a with
    | some s' => aggRun s' as
    | none => none

def AggReachable (s : AggState) : Prop :=
  ∃ acts, aggRun aggInit acts = some s

/-! ## Invariants of the aggregator machine

`Inv` collects the facts preserved by every `aggStep`: task ids are
allocated fresh; the tracked task of a device exists, belongs to that
device and is alive; every live task is the tracked one of its device
(hence at most one live task per device); a tracked device has a candidate
entry; a device with no tracked task has its candidate entry (if any) in
sync with its committed entry; and a task past its commit point has
committed the current candidate pair. -/

structure Inv (s : AggState) : Prop where
  fresh : ∀ i, s.nextId ≤ i → s.tasks i = none
  tracked_mem : ∀ dev i, s.pending_tasks dev = some i →
    ∃ t, s.tasks i = some t ∧ t.dev = dev ∧ t.phase.isLive = true
  live_tracked : ∀ i t, s.tasks i = some t → t.phase.isLive = true →
    s.pending_tasks t.dev = some i
  tracked_pending : ∀ dev, (s.pending_tasks dev).isSome → (s.pending_state dev).isSome
  idle_sync : ∀ dev, s.pending_tasks dev = none →
    s.pending_state dev = none ∨ s.pending_state dev = s.critical_state dev
  commit_sync : ∀ i t, s.tasks i = some t → t.phase = .refreshWait →
    s.critical_state t.dev = some ((s.pending_state t.dev).getD (none, none))

/-- The events attributed to settle task `i`. -/
def eventsOf (s : AggState) (i : Nat) : List SettleEvent :=
  s.events.filter (fun e => e.taskId = i)

/-- The reconciliation refreshes attributed to settle task `i`. -/
def refreshesOf (s : AggState) (i : Nat) : List (Nat × String) :=
  s.refreshes.filter (fun r => r.1 = i)

/-- Task `i` has been cancelled (or has already terminated): its coroutine
can only unwind, never perform further work. -/
def taskCancelled (s : AggState) (i : Nat) : Prop :=
  ∃ t, s.tasks i = some t ∧ (t.phase = .cancelling ∨ t.phase = .done)

/-- The comparison baseline in the spec's words: CandidateState if a settle
is pending for the device, otherwise CommittedState. -/
def specBaseline (s : AggState) (dev : String) : StatePair :=
  if (s.pending_tasks dev).isSome then (s.pending_state dev).getD (none, none)
  else (s.critical_state dev).getD (none, none)

/-! ## Invariant of the command-serialization machine -/

/-- Invariant of the operation machine: ids are fresh; the semaphore
counter never exceeds its initial value; while a serialized operation is
inside the critical section the counter is zero (so no further `acquire`
can proceed); and at most one serialized operation is running. -/
structure SemInv (s : SemState) : Prop where
  fresh : ∀ i, s.nextId ≤ i → s.ops i = none
  sem_le : s.sem ≤ 1
  running_sem : ∀ i oi, s.ops i = some oi → oi.kind = .serialized →
    oi.phase = .running → s.sem = 0
  mutex : ∀ i j oi oj, s.ops i = some oi → s.ops j = some oj →
    oi.kind = .serialized → oj.kind = .serialized →
    oi.phase = .running → oj.phase = .running → i = j

/-- A reachable state in which a serialized `cmd_lock` operation is inside
the critical section: used to witness that the gate then blocks everyone. -/
def semBusyState : SemState :=
  (semRun semInit
    [.spawnCmd "front" "lock", .spawnCmd "back" "unlock", .acquire 0]).getD semInit

/-- A reachable state of the operation machine in which a serialized
`cmd_refresh` for device "front" holds the semaphore while the WebSocket
`lock` path for device "back" is simultaneously executing its direct
adapter call. -/
def semOverlapState : SemState :=
  (semRun semInit
    [.spawnCmd "front" "refresh", .acquire 0,
     .spawnWs "back" "lock", .startDirect 1]).getD semInit

/-- The aggregator right after a stable lock-axis change for device
"front" is observed (settle task created, not yet started). -/
def aggObservedState : AggState :=
  (aggRun aggInit [.observe "front" .locked .unknown]).getD aggInit

/-- The aggregator after a stable lock-axis change for device "front"
whose settle task has started sleeping: a lock-reason debounce is pending. -/
def aggLockPendingState : AggState :=
  (aggRun aggInit [.observe "front" .locked .unknown, .startTask 0]).getD aggInit

/-- `aggLockPendingState` after a stable door-axis change arrives and the
replacement settle task starts: the old task is cancelled and the new
debounce sleeps the door delay. -/
def aggDoorReplaceState : AggState :=
  (aggRun aggInit
    [.observe "front" .locked .unknown, .startTask 0,
     .observe "front" .locked .opened, .startTask 1]).getD aggInit

/-- `aggDoorReplaceState` after the replacement settle task wakes from its
debounce sleep and commits: the cancelled task 0 still has no attributed
events or refreshes. -/
def aggCommitState : AggState :=
  (aggRun aggInit
    [.observe "front" .locked .unknown, .startTask 0,
     .observe "front" .locked .opened, .startTask 1,
     .wakeDebounce 1]).getD aggInit

/-- Every sleeping settle task sleeps the delay determined by the pending
reason it read when its body started. -/
def DelayOK (s : AggState) : Prop :=
  ∀ i t d r, s.tasks i = some t → t.phase = .debouncing d r → d = settleDelay r

/-! # Theorems -/

theorem upd_same {κ α : Type} [DecidableEq κ] (f : κ → α) (k : κ) (v : α) :
    upd f k v k = v := by simp [upd]

theorem upd_ne {κ α : Type} [DecidableEq κ] (f : κ → α) {k n : κ} (v : α)
    (h : n ≠ k) : upd f k v n = f n := by simp [upd, h]

theorem upd_eq_ite {κ α : Type} [DecidableEq κ] (f : κ → α) (k n : κ) (v : α) :
    upd f k v n = if n = k then v else f n := rfl

theorem cancelTracked_eq (s : AggState) (dev : String) (k : Nat) :
    cancelTracked s dev k =
      if s.pending_tasks dev = some k then
        (s.tasks k).map (fun t => { t with phase := cancelPhase t.phase })
      else s.tasks k := by
  cases htr : s.pending_tasks dev with
  | none => simp [cancelTracked, htr]
  | some j =>
    by_cases hk : k = j
    · subst hk; simp [cancelTracked, htr, upd]
    · simp [cancelTracked, htr, upd, hk, Ne.symm hk]

theorem cancelPhase_not_live (p : Phase) : (cancelPhase p).isLive = false := by
  cases p <;> rfl

theorem Inv_init : Inv aggInit := by
  constructor <;> simp [aggInit]

theorem setTaskPhase_eq (s : AggState) (i : Nat) (p : Phase) (k : Nat) :
    setTaskPhase s i p k =
      if k = i then (s.tasks k).map (fun t => { t with phase := p })
      else s.tasks k := by
  by_cases hk : k = i
  · subst hk; simp [setTaskPhase, upd]
  · simp [setTaskPhase, upd, hk]

theorem cancelPhase_ne_refreshWait (p : Phase) : cancelPhase p ≠ .refreshWait := by
  cases p <;> simp [cancelPhase]

theorem scheduleSettle_tasks (s₁ : AggState) (dev : String) (k : Nat) :
    (scheduleSettle s₁ dev).tasks k =
      if k = s₁.nextId then some ⟨dev, .created⟩
      else if s₁.pending_tasks dev = some k then
        (s₁.tasks k).map (fun t => { t with phase := cancelPhase t.phase })
      else s₁.tasks k := by
  by_cases hk : k = s₁.nextId
  · subst hk; simp [scheduleSettle, upd]
  · simp only [scheduleSettle]
    rw [show (upd (cancelTracked s₁ dev) s₁.nextId (some ⟨dev, Phase.created⟩)) k =
        cancelTracked s₁ dev k from upd_ne _ _ hk]
    rw [cancelTracked_eq]
    simp [hk]

theorem observe_inv {s : AggState} {dev : String} {l : LockStatus} {d : DoorStatus}
    (hs : Inv s) {s' : AggState}
    (h : aggStep s (.observe dev l d) = some s') : Inv s' := by
  simp only [aggStep] at h
  split at h
  · injection h with h; exact h ▸ hs
  · rename_i hch
    injection h with h
    subst h
    set n := s.nextId with hn
    have htasks : ∀ k, (scheduleSettle
        { s with
          pending_state := upd s.pending_state dev
            (some (match stable_lock l with
                   | some v => some v
                   | none => (observeBaseline s dev).1,
                   match stable_door d with
                   | some v => some v
                   | none => (observeBaseline s dev).2))
          pending_reason := upd s.pending_reason dev
            (some (if door_changed d (observeBaseline s dev).2 then "door" else "lock")) }
        dev).tasks k =
        if k = n then some ⟨dev, .created⟩
        else if s.pending_tasks dev = some k then
          (s.tasks k).map (fun t => { t with phase := cancelPhase t.phase })
        else s.tasks k := by
      intro k
      rw [scheduleSettle_tasks]
    constructor
    case fresh =>
      intro i hi
      rw [htasks]
      have hin : i ≠ n := by
        simp only [scheduleSettle] at hi; omega
      have : s.tasks i = none := hs.fresh i (by simp only [scheduleSettle] at hi; omega)
      simp [hin, this]
    case tracked_mem =>
      intro dev' i htr
      simp only [scheduleSettle, upd_eq_ite] at htr
      rw [htasks]
      by_cases hdev : dev' = dev
      · simp [hdev] at htr
        refine ⟨⟨dev', .created⟩, ?_, rfl, rfl⟩
        simp [hdev, ← htr]
      · simp [hdev] at htr
        obtain ⟨t, hti, htdev, hlive⟩ := hs.tracked_mem dev' i htr
        have hin : i ≠ n := by
          intro hieq
          have hnone := hs.fresh i (by omega)
          rw [hti] at hnone
          exact Option.noConfusion hnone
        have hnot : ¬ (s.pending_tasks dev = some i) := by
          intro hcon
          obtain ⟨t2, ht2, ht2dev, _⟩ := hs.tracked_mem dev i hcon
          rw [hti] at ht2
          injection ht2 with ht2
          exact hdev (htdev ▸ ht2 ▸ ht2dev ▸ rfl)
        simp [hin, hnot, hti]
        exact ⟨htdev, hlive⟩
    case live_tracked =>
      intro i t hti hlive
      rw [htasks] at hti
      simp only [scheduleSettle, upd_eq_ite]
      by_cases hin : i = n
      · subst hin
        simp at hti
        subst hti
        simp
      · simp [hin] at hti
        by_cases hcanc : s.pending_tasks dev = some i
        · simp [hcanc] at hti
          obtain ⟨t0, ht0, ht0eq⟩ := hti
          rw [← ht0eq] at hlive
          simp [cancelPhase_not_live] at hlive
        · simp [hcanc] at hti
          have := hs.live_tracked i t hti hlive
          have htdev : t.dev ≠ dev := by
            intro hcon
            rw [hcon] at this
            exact hcanc this
          simp [htdev, this]
    case tracked_pending =>
      intro dev'
      simp only [scheduleSettle, upd_eq_ite]
      by_cases hdev : dev' = dev
      · subst hdev; simp
      · simp [hdev]
        exact fun h2 => hs.tracked_pending dev' h2
    case idle_sync =>
      intro dev'
      simp only [scheduleSettle, upd_eq_ite]
      by_cases hdev : dev' = dev
      · subst hdev; simp
      · simp [hdev]
        exact hs.idle_sync dev'
    case commit_sync =>
      intro i t hti hph
      rw [htasks] at hti
      by_cases hin : i = n
      · subst hin
        simp at hti
        rw [← hti] at hph
        exact absurd hph (by simp)
      · simp [hin] at hti
        by_cases hcanc : s.pending_tasks dev = some i
        · simp [hcanc] at hti
          obtain ⟨t0, ht0, ht0eq⟩ := hti
          rw [← ht0eq] at hph
          exact absurd hph (cancelPhase_ne_refreshWait t0.phase)
        · simp [hcanc] at hti
          have hlive : t.phase.isLive = true := by rw [hph]; rfl
          have htr := hs.live_tracked i t hti hlive
          have htdev : t.dev ≠ dev := by
            intro hcon; rw [hcon] at htr; exact hcanc htr
          simp only [scheduleSettle]
          simp only [upd_eq_ite]
          simp [htdev]
          exact hs.commit_sync i t hti hph

theorem startTask_inv {s : AggState} {i : Nat} (hs : Inv s) {s' : AggState}
    (h : aggStep s (.startTask i) = some s') : Inv s' := by
  simp only [aggStep] at h
  cases hti : s.tasks i with
  | none => rw [hti] at h; exact Option.noConfusion h
  | some t =>
    rw [hti] at h
    dsimp only at h
    split at h
    case isFalse => exact Option.noConfusion h
    case isTrue hcond =>
      injection h with h
      subst h
      have hlivet : t.phase.isLive = true := by rw [hcond]; rfl
      constructor <;> dsimp only
      case fresh =>
        intro k hk
        rw [setTaskPhase_eq]
        simp [hs.fresh k hk]
      case tracked_mem =>
        intro dev' j htr
        obtain ⟨t', ht', hdev', hlive'⟩ := hs.tracked_mem dev' j htr
        rw [setTaskPhase_eq]
        by_cases hj : j = i
        · subst hj
          rw [hti] at ht'
          injection ht' with ht'
          refine ⟨⟨t.dev, .debouncing (settleDelay (s.pending_reason t.dev))
            (s.pending_reason t.dev)⟩, by simp [hti], ?_, rfl⟩
          rw [ht']; exact hdev'
        · simp [hj]
          exact ⟨t', ht', hdev', hlive'⟩
      case live_tracked =>
        intro j t' ht' hlive'
        rw [setTaskPhase_eq] at ht'
        by_cases hj : j = i
        · subst hj
          simp [hti] at ht'
          rw [← ht']
          exact hs.live_tracked j t hti hlivet
        · simp [hj] at ht'
          exact hs.live_tracked j t' ht' hlive'
      case tracked_pending => exact hs.tracked_pending
      case idle_sync => exact hs.idle_sync
      case commit_sync =>
        intro j t' ht' hph'
        rw [setTaskPhase_eq] at ht'
        by_cases hj : j = i
        · subst hj
          simp [hti] at ht'
          rw [← ht'] at hph'
          exact absurd hph' (by simp)
        · simp [hj] at ht'
          exact hs.commit_sync j t' ht' hph'

theorem wakeDebounce_inv {s : AggState} {i : Nat} (hs : Inv s) {s' : AggState}
    (h : aggStep s (.wakeDebounce i) = some s') : Inv s' := by
  simp only [aggStep] at h
  cases hti : s.tasks i with
  | none => rw [hti] at h; exact Option.noConfusion h
  | some t =>
    rw [hti] at h
    dsimp only at h
    cases hph : t.phase <;> rw [hph] at h <;> dsimp only at h <;>
      try exact Option.noConfusion h
    case debouncing delay r =>
      injection h with h
      subst h
      have hlivet : t.phase.isLive = true := by rw [hph]; rfl
      have htr : s.pending_tasks t.dev = some i := hs.live_tracked i t hti hlivet
      constructor <;> dsimp only
      case fresh =>
        intro k hk
        rw [setTaskPhase_eq]
        simp [hs.fresh k hk]
      case tracked_mem =>
        intro dev' j htr'
        obtain ⟨t', ht', hdev', hlive'⟩ := hs.tracked_mem dev' j htr'
        rw [setTaskPhase_eq]
        by_cases hj : j = i
        · subst hj
          rw [hti] at ht'
          injection ht' with ht'
          refine ⟨⟨t.dev, .refreshWait⟩, by simp [hti], ?_, rfl⟩
          rw [ht']; exact hdev'
        · simp [hj]
          exact ⟨t', ht', hdev', hlive'⟩
      case live_tracked =>
        intro j t' ht' hlive'
        rw [setTaskPhase_eq] at ht'
        by_cases hj : j = i
        · subst hj
          simp [hti] at ht'
          rw [← ht']
          exact htr
        · simp [hj] at ht'
          exact hs.live_tracked j t' ht' hlive'
      case tracked_pending => exact hs.tracked_pending
      case idle_sync =>
        intro dev' hnone
        have hne : dev' ≠ t.dev := by
          intro he; rw [he, htr] at hnone; exact Option.noConfusion hnone
        simp only [upd_eq_ite]
        simp [hne]
        exact hs.idle_sync dev' hnone
      case commit_sync =>
        intro j t' ht' hph'
        rw [setTaskPhase_eq] at ht'
        by_cases hj : j = i
        · subst hj
          simp [hti] at ht'
          rw [← ht']
          simp [upd]
        · simp [hj] at ht'
          have hlive' : t'.phase.isLive = true := by rw [hph']; rfl
          have htr' := hs.live_tracked j t' ht' hlive'
          have hne : t'.dev ≠ t.dev := by
            intro he
            rw [he, htr] at htr'
            injection htr' with htr'
            exact hj htr'.symm
          simp only [upd_eq_ite]
          simp [hne]
          exact hs.commit_sync j t' ht' hph'

theorem wakeRefresh_inv {s : AggState} {i : Nat} (hs : Inv s) {s' : AggState}
    (h : aggStep s (.wakeRefresh i) = some s') : Inv s' := by
  simp only [aggStep] at h
  cases hti : s.tasks i with
  | none => rw [hti] at h; exact Option.noConfusion h
  | some t =>
    rw [hti] at h
    dsimp only at h
    split at h
    case isFalse => exact Option.noConfusion h
    case isTrue hph =>
      have hlivet : t.phase.isLive = true := by rw [hph]; rfl
      have htr : s.pending_tasks t.dev = some i := hs.live_tracked i t hti hlivet
      rw [if_pos htr] at h
      injection h with h
      subst h
      constructor <;> dsimp only
      case fresh =>
        intro k hk
        rw [setTaskPhase_eq]
        simp [hs.fresh k hk]
      case tracked_mem =>
        intro dev' j htr'
        simp only [upd_eq_ite] at htr'
        by_cases hdev : dev' = t.dev
        · simp [hdev] at htr'
        · simp [hdev] at htr'
          obtain ⟨t', ht', hdev', hlive'⟩ := hs.tracked_mem dev' j htr'
          have hj : j ≠ i := by
            intro he
            rw [he, hti] at ht'
            injection ht' with ht'
            rw [← ht'] at hdev'
            exact hdev hdev'.symm
          rw [setTaskPhase_eq]
          simp [hj]
          exact ⟨t', ht', hdev', hlive'⟩
      case live_tracked =>
        intro j t' ht' hlive'
        rw [setTaskPhase_eq] at ht'
        by_cases hj : j = i
        · subst hj
          simp [hti] at ht'
          rw [← ht'] at hlive'
          simp [Phase.isLive] at hlive'
        · simp [hj] at ht'
          have htr' := hs.live_tracked j t' ht' hlive'
          have hne : t'.dev ≠ t.dev := by
            intro he
            rw [he, htr] at htr'
            injection htr' with htr'
            exact hj htr'.symm
          simp only [upd_eq_ite]
          simp [hne]
          exact htr'
      case tracked_pending =>
        intro dev'
        simp only [upd_eq_ite]
        by_cases hdev : dev' = t.dev
        · simp [hdev]
        · simp [hdev]
          exact hs.tracked_pending dev'
      case idle_sync =>
        intro dev' hnone2
        by_cases hdev : dev' = t.dev
        · have hcs := hs.commit_sync i t hti hph
          cases hp : s.pending_state dev' with
          | none => exact Or.inl rfl
          | some p =>
            right
            rw [hdev] at hp
            rw [hp] at hcs
            simp at hcs
            rw [hdev, hcs]
        · have hnone : s.pending_tasks dev' = none := by
            simpa [upd_eq_ite, hdev] using hnone2
          exact hs.idle_sync dev' hnone
      case commit_sync =>
        intro j t' ht' hph'
        rw [setTaskPhase_eq] at ht'
        by_cases hj : j = i
        · subst hj
          simp [hti] at ht'
          rw [← ht'] at hph'
          exact absurd hph' (by simp)
        · simp [hj] at ht'
          exact hs.commit_sync j t' ht' hph'

theorem unwind_inv {s : AggState} {i : Nat} (hs : Inv s) {s' : AggState}
    (h : aggStep s (.unwind i) = some s') : Inv s' := by
  simp only [aggStep] at h
  cases hti : s.tasks i with
  | none => rw [hti] at h; exact Option.noConfusion h
  | some t =>
    rw [hti] at h
    dsimp only at h
    split at h
    case isFalse => exact Option.noConfusion h
    case isTrue hph =>
      have hntr : ¬ (s.pending_tasks t.dev = some i) := by
        intro hcon
        obtain ⟨t2, ht2, _, hlive2⟩ := hs.tracked_mem t.dev i hcon
        rw [hti] at ht2
        injection ht2 with ht2
        rw [← ht2] at hlive2
        rw [hph] at hlive2
        exact Bool.noConfusion hlive2
      rw [if_neg hntr] at h
      injection h with h
      subst h
      constructor <;> dsimp only
      case fresh =>
        intro k hk
        rw [setTaskPhase_eq]
        simp [hs.fresh k hk]
      case tracked_mem =>
        intro dev' j htr'
        obtain ⟨t', ht', hdev', hlive'⟩ := hs.tracked_mem dev' j htr'
        have hj : j ≠ i := by
          intro he
          rw [he, hti] at ht'
          injection ht' with ht'
          rw [← ht'] at hlive'
          rw [hph] at hlive'
          exact Bool.noConfusion hlive'
        rw [setTaskPhase_eq]
        simp [hj]
        exact ⟨t', ht', hdev', hlive'⟩
      case live_tracked =>
        intro j t' ht' hlive'
        rw [setTaskPhase_eq] at ht'
        by_cases hj : j = i
        · subst hj
          simp [hti] at ht'
          rw [← ht'] at hlive'
          simp [Phase.isLive] at hlive'
        · simp [hj] at ht'
          exact hs.live_tracked j t' ht' hlive'
      case tracked_pending => exact hs.tracked_pending
      case idle_sync => exact hs.idle_sync
      case commit_sync =>
        intro j t' ht' hph'
        rw [setTaskPhase_eq] at ht'
        by_cases hj : j = i
        · subst hj
          simp [hti] at ht'
          rw [← ht'] at hph'
          exact absurd hph' (by simp)
        · simp [hj] at ht'
          exact hs.commit_sync j t' ht' hph'

theorem aggStep_inv {s s' : AggState} {a : AggAct} (hs : Inv s)
    (h : aggStep s a = some s') : Inv s' := by
  cases a with
  | observe dev l d => exact observe_inv hs h
  | startTask i => exact startTask_inv hs h
  | wakeDebounce i => exact wakeDebounce_inv hs h
  | wakeRefresh i => exact wakeRefresh_inv hs h
  | unwind i => exact unwind_inv hs h

theorem aggRun_inv {s s' : AggState} {acts : List AggAct} (hs : Inv s)
    (h : aggRun s acts = some s') : Inv s' := by
  induction acts generalizing s with
  | nil => injection h with h; exact h ▸ hs
  | cons a as ih =>
    simp only [aggRun] at h
    cases hstep : aggStep s a with
    | none => rw [hstep] at h; exact Option.noConfusion h
    | some s₁ =>
      rw [hstep] at h
      exact ih (aggStep_inv hs hstep) h

theorem reachable_inv {s : AggState} (h : AggReachable s) : Inv s := by
  obtain ⟨acts, hacts⟩ := h
  exact aggRun_inv Inv_init hacts

theorem updN_same {α : Type} (f : Nat → α) (k : Nat) (v : α) : updN f k v k = v := by
  simp [updN]

theorem updN_ne {α : Type} (f : Nat → α) {k n : Nat} (v : α) (h : n ≠ k) :
    updN f k v n = f n := by simp [updN, h]

theorem semInv_init : SemInv semInit := by
  constructor <;> simp [semInit]

theorem semStep_inv {s s' : SemState} {a : SemAct} (hs : SemInv s)
    (h : semStep s a = some s') : SemInv s' := by
  cases a with
  | spawnCmd dev op_name =>
    injection h with h
    subst h
    constructor <;> dsimp only
    case fresh =>
      intro i hi
      rw [updN_ne _ _ (by omega)]
      exact hs.fresh i (by omega)
    case sem_le => exact hs.sem_le
    case running_sem =>
      intro i oi hoi hk hph
      by_cases hi : i = s.nextId
      · subst hi
        rw [updN_same] at hoi
        injection hoi with hoi
        rw [← hoi] at hph
        exact absurd hph (by simp)
      · rw [updN_ne _ _ hi] at hoi
        exact hs.running_sem i oi hoi hk hph
    case mutex =>
      intro i j oi oj hoi hoj hki hkj hpi hpj
      by_cases hi : i = s.nextId
      · subst hi
        rw [updN_same] at hoi
        injection hoi with hoi
        rw [← hoi] at hpi
        exact absurd hpi (by simp)
      · by_cases hj : j = s.nextId
        · subst hj
          rw [updN_same] at hoj
          injection hoj with hoj
          rw [← hoj] at hpj
          exact absurd hpj (by simp)
        · rw [updN_ne _ _ hi] at hoi
          rw [updN_ne _ _ hj] at hoj
          exact hs.mutex i j oi oj hoi hoj hki hkj hpi hpj
  | spawnWs dev op_name =>
    injection h with h
    subst h
    constructor <;> dsimp only
    case fresh =>
      intro i hi
      rw [updN_ne _ _ (by omega)]
      exact hs.fresh i (by omega)
    case sem_le => exact hs.sem_le
    case running_sem =>
      intro i oi hoi hk hph
      by_cases hi : i = s.nextId
      · subst hi
        rw [updN_same] at hoi
        injection hoi with hoi
        rw [← hoi] at hph
        exact absurd hph (by simp)
      · rw [updN_ne _ _ hi] at hoi
        exact hs.running_sem i oi hoi hk hph
    case mutex =>
      intro i j oi oj hoi hoj hki hkj hpi hpj
      by_cases hi : i = s.nextId
      · subst hi
        rw [updN_same] at hoi
        injection hoi with hoi
        rw [← hoi] at hki
        exact absurd hki (by simp)
      · by_cases hj : j = s.nextId
        · subst hj
          rw [updN_same] at hoj
          injection hoj with hoj
          rw [← hoj] at hkj
          exact absurd hkj (by simp)
        · rw [updN_ne _ _ hi] at hoi
          rw [updN_ne _ _ hj] at hoj
          exact hs.mutex i j oi oj hoi hoj hki hkj hpi hpj
  | acquire i =>
    simp only [semStep] at h
    cases ho : s.ops i with
    | none => rw [ho] at h; exact Option.noConfusion h
    | some o =>
      rw [ho] at h
      dsimp only at h
      split at h
      case isFalse => exact Option.noConfusion h
      case isTrue hcond =>
        obtain ⟨hok, how, hsem⟩ := hcond
        injection h with h
        subst h
        have hsem1 : s.sem = 1 := le_antisymm hs.sem_le hsem
        have hnorun : ∀ j oj, s.ops j = some oj → oj.kind = .serialized →
            oj.phase = .running → False := by
          intro j oj hoj hkj hpj
          have := hs.running_sem j oj hoj hkj hpj
          omega
        constructor <;> dsimp only
        case fresh =>
          intro k hk
          have hik : k ≠ i := by
            intro he
            have hfr := hs.fresh k hk
            rw [he, ho] at hfr
            exact Option.noConfusion hfr
          rw [updN_ne _ _ hik]
          exact hs.fresh k hk
        case sem_le => omega
        case running_sem => intro _ _ _ _ _; omega
        case mutex =>
          intro j k oj ok hoj hok2 hkj hkk hpj hpk
          by_cases hj : j = i
          · by_cases hk : k = i
            · rw [hj, hk]
            · rw [updN_ne _ _ hk] at hok2
              exact (hnorun k ok hok2 hkk hpk).elim
          · rw [updN_ne _ _ hj] at hoj
            exact (hnorun j oj hoj hkj hpj).elim
  | startDirect i =>
    simp only [semStep] at h
    cases ho : s.ops i with
    | none => rw [ho] at h; exact Option.noConfusion h
    | some o =>
      rw [ho] at h
      dsimp only at h
      split at h
      case isFalse => exact Option.noConfusion h
      case isTrue hcond =>
        obtain ⟨hok, how⟩ := hcond
        injection h with h
        subst h
        constructor <;> dsimp only
        case fresh =>
          intro k hk
          have hik : k ≠ i := by
            intro he
            exact absurd (hs.fresh k hk) (by rw [he, ho]; simp)
          rw [updN_ne _ _ hik]
          exact hs.fresh k hk
        case sem_le => exact hs.sem_le
        case running_sem =>
          intro j oj hoj hkj hpj
          by_cases hj : j = i
          · subst hj
            rw [updN_same] at hoj
            injection hoj with hoj
            rw [← hoj] at hkj
            simp at hkj
            rw [hok] at hkj
            exact absurd hkj (by simp)
          · rw [updN_ne _ _ hj] at hoj
            exact hs.running_sem j oj hoj hkj hpj
        case mutex =>
          intro j k oj ok2 hoj hok2 hkj hkk hpj hpk
          by_cases hj : j = i
          · subst hj
            rw [updN_same] at hoj
            injection hoj with hoj
            rw [← hoj] at hkj
            simp at hkj
            rw [hok] at hkj
            exact absurd hkj (by simp)
          · by_cases hk : k = i
            · subst hk
              rw [updN_same] at hok2
              injection hok2 with hok2
              rw [← hok2] at hkk
              simp at hkk
              rw [hok] at hkk
              exact absurd hkk (by simp)
            · rw [updN_ne _ _ hj] at hoj
              rw [updN_ne _ _ hk] at hok2
              exact hs.mutex j k oj ok2 hoj hok2 hkj hkk hpj hpk
  | finish i =>
    simp only [semStep] at h
    cases ho : s.ops i with
    | none => rw [ho] at h; exact Option.noConfusion h
    | some o =>
      rw [ho] at h
      dsimp only at h
      split at h
      case isFalse => exact Option.noConfusion h
      case isTrue hcond =>
        injection h with h
        subst h
        have hnorun : ∀ j oj, s.ops j = some oj → j ≠ i → oj.kind = .serialized →
            oj.phase = .running → o.kind = .serialized → False := by
          intro j oj hoj hj hkj hpj hko
          exact hj (hs.mutex j i oj o hoj ho hkj hko hpj hcond)
        constructor <;> dsimp only
        case fresh =>
          intro k hk
          have hik : k ≠ i := by
            intro he
            exact absurd (hs.fresh k hk) (by rw [he, ho]; simp)
          rw [updN_ne _ _ hik]
          exact hs.fresh k hk
        case sem_le =>
          by_cases hko : o.kind = .serialized
          · have := hs.running_sem i o ho hko hcond
            simp [hko]
            omega
          · simp [hko]
            exact hs.sem_le
        case running_sem =>
          intro j oj hoj hkj hpj
          by_cases hj : j = i
          · subst hj
            rw [updN_same] at hoj
            injection hoj with hoj
            rw [← hoj] at hpj
            exact absurd hpj (by simp)
          · rw [updN_ne _ _ hj] at hoj
            by_cases hko : o.kind = .serialized
            · exact (hnorun j oj hoj hj hkj hpj hko).elim
            · simp [hko]
              exact hs.running_sem j oj hoj hkj hpj
        case mutex =>
          intro j k oj ok2 hoj hok2 hkj hkk hpj hpk
          by_cases hj : j = i
          · subst hj
            rw [updN_same] at hoj
            injection hoj with hoj
            rw [← hoj] at hpj
            exact absurd hpj (by simp)
          · by_cases hk : k = i
            · subst hk
              rw [updN_same] at hok2
              injection hok2 with hok2
              rw [← hok2] at hpk
              exact absurd hpk (by simp)
            · rw [updN_ne _ _ hj] at hoj
              rw [updN_ne _ _ hk] at hok2
              exact hs.mutex j k oj ok2 hoj hok2 hkj hkk hpj hpk

theorem semRun_inv {s s' : SemState} {acts : List SemAct} (hs : SemInv s)
    (h : semRun s acts = some s') : SemInv s' := by
  induction acts generalizing s with
  | nil => injection h with h; exact h ▸ hs
  | cons a as ih =>
    simp only [semRun] at h
    cases hstep : semStep s a with
    | none => rw [hstep] at h; exact Option.noConfusion h
    | some s₁ =>
      rw [hstep] at h
      exact ih (semStep_inv hs hstep) h

theorem semReachable_inv {s : SemState} (h : SemReachable s) : SemInv s := by
  obtain ⟨acts, hacts⟩ := h
  exact semRun_inv semInv_init hacts




/-- Claim C1: the Command Serializer (`_ble_op_sem` + `_with_ble_lock`)
gives fleet-wide mutual exclusion for `cmd_lock`/`cmd_unlock`/`cmd_refresh`:
in every reachable state at most one serialized operation is running
(regardless of target device), and while one is running no other caller
can pass the gate (`acquire` is disabled for every operation). -/
theorem cmd_serializer_c1 (s : SemState) (hs : SemReachable s)
    (i : Nat) (oi : OpRec) (hi : s.ops i = some oi)
    (hki : oi.kind = .serialized) (hpi : oi.phase = .running) :
    (∀ j oj, s.ops j = some oj → oj.kind = .serialized →
      oj.phase = .running → j = i) ∧
    (∀ k, semStep s (.acquire k) = none) := by
  have hinv := semReachable_inv hs
  have hsem0 : s.sem = 0 := hinv.running_sem i oi hi hki hpi
  constructor
  · intro j oj hj hkj hpj
    exact hinv.mutex j i oj oi hj hi hkj hki hpj hpi
  · intro k
    simp only [semStep]
    cases ho : s.ops k with
    | none => rfl
    | some o =>
      dsimp only
      rw [if_neg]
      intro hcond
      rw [hsem0] at hcond
      exact absurd hcond.2.2 (by simp)

theorem cmd_serializer_c1_witness :
    semStep semBusyState (.acquire 1) = none ∧
    (∀ j oj, semBusyState.ops j = some oj → oj.kind = .serialized →
      oj.phase = .running → j = 0) :=
  have h := cmd_serializer_c1 semBusyState
    ⟨[.spawnCmd "front" "lock", .spawnCmd "back" "unlock", .acquire 0], rfl⟩
    0 ⟨"front", "lock", .serialized, .running⟩ rfl rfl rfl
  ⟨h.2 1, h.1⟩



/-- Claim C2 fails on the code: the WebSocket server's `lock` command
branch (ws_server.py:210) calls `get_lock(lock_name).lock()` directly —
the effect produced is a plain adapter call, not a dispatch through
`cmd_lock`/`_with_ble_lock` — and consequently a WebSocket-initiated lock
operation can run while a serialized refresh holds `_ble_op_sem`: the two
device operations overlap. -/
theorem ws_lock_bypasses_serializer_c2 :
    (handle_message ["back"] ⟨some "command", some "r1", some "lock", some "back"⟩).2 =
      [.adapter_lock "back"] ∧
    semRun semInit
      [.spawnCmd "front" "refresh", .acquire 0,
       .spawnWs "back" "lock", .startDirect 1] = some semOverlapState ∧
    semOverlapState.ops 0 = some ⟨"front", "refresh", .serialized, .running⟩ ∧
    semOverlapState.ops 1 = some ⟨"back", "lock", .direct, .running⟩ :=
  ⟨by decide, rfl, by decide, by decide⟩

theorem pyStartsWith_empty : pyStartsWith "" "Bearer " = false := by decide

/-- Claim C6, counterexample: with configured token `"tok"`, the header
`"Bearer  tok"` presents the Bearer credential `" tok"`, which is not
exactly the configured token, yet the handshake is accepted instead of
being rejected with 403 Forbidden, because `_process_request` strips
whitespace from the credential before comparing. -/
theorem process_request_c6_counterexample :
    pyDrop "Bearer  tok" 7 = " tok" ∧ (" tok" : String) ≠ "tok" ∧
    process_request (some "tok") (some "Bearer  tok") = .accepted :=
  ⟨by decide, by decide, by decide⟩

/-- Claim C6, amended: with no (or empty) configured token every handshake
is accepted; with a token configured, a missing header or one that does
not start with `"Bearer "` is rejected 401; otherwise the credential after
`"Bearer "` is compared to the token after stripping surrounding
whitespace — a mismatch is rejected 403 and a match is accepted. -/
theorem process_request_c6 (t h : String) (ht : t ≠ "") :
    process_request none (some h) = .accepted ∧
    process_request (some "") (some h) = .accepted ∧
    process_request (some t) none = .unauthorized ∧
    (pyStartsWith h "Bearer " = false →
      process_request (some t) (some h) = .unauthorized) ∧
    (pyStartsWith h "Bearer " = true → pyStrip (pyDrop h 7) ≠ t →
      process_request (some t) (some h) = .forbidden) ∧
    (pyStartsWith h "Bearer " = true → pyStrip (pyDrop h 7) = t →
      process_request (some t) (some h) = .accepted) := by
  refine ⟨rfl, rfl, by simp [process_request, strFalsy, ht], ?_, ?_, ?_⟩
  · intro hsw
    simp [process_request, strFalsy, ht, hsw]
  · intro hsw hne
    have hne0 : h ≠ "" := by
      intro h0; rw [h0] at hsw
      exact absurd hsw (by simp [pyStartsWith_empty])
    simp [process_request, strFalsy, ht, hsw, hne0, hne]
  · intro hsw heq
    have hne0 : h ≠ "" := by
      intro h0; rw [h0] at hsw
      exact absurd hsw (by simp [pyStartsWith_empty])
    simp [process_request, strFalsy, ht, hsw, hne0, heq]

theorem process_request_c6_witness :
    process_request (some "tok") (some "Bearer bad") = .forbidden :=
  (process_request_c6 "tok" "Bearer bad" (by decide)).2.2.2.2.1 (by decide) (by decide)


theorem handler_run_length (registry : List String) (frames : List Frame)
    (hno : ∀ f ∈ frames, f ≠ Frame.textNonObject) :
    (handler_run registry frames).length = frames.length := by
  induction frames with
  | nil => rfl
  | cons f fs ih =>
    have hrest : ∀ g ∈ fs, g ≠ Frame.textNonObject := fun g hg => hno g (by simp [hg])
    cases f with
    | textInvalid raw => simp [handler_run, handler_step, ih hrest]
    | textNonObject => exact absurd rfl (hno _ (by simp))
    | textMsg m => simp [handler_run, handler_step, ih hrest]

/-- Claim C7: a text frame that is not valid JSON gets the structured
`invalid_json` error response and the receive loop keeps going; a
`get_state` (likewise `lock`/`unlock`) command naming an unregistered
device gets a structured error response (the stringified `KeyError`) on
the still-open connection; and a connection fed any sequence of
JSON-object or invalid-JSON frames answers every one of them. -/
theorem handler_c7 (registry : List String) (raw : String) (name : String)
    (rid : Option String) (frames : List Frame)
    (hname : name ∉ registry) (hne : name ≠ "")
    (hno : ∀ f ∈ frames, f ≠ Frame.textNonObject) :
    handler_step registry (.textInvalid raw) =
      (some (.error none "invalid_json"), true) ∧
    (∀ m : Msg, (handler_step registry (.textMsg m)).2 = true) ∧
    handle_message registry ⟨some "command", rid, some "get_state", some name⟩ =
      (.error rid (keyErrorStr name), []) ∧
    handle_message registry ⟨some "command", rid, some "lock", some name⟩ =
      (.error rid (keyErrorStr name), []) ∧
    handle_message registry ⟨some "command", rid, some "unlock", some name⟩ =
      (.error rid (keyErrorStr name), []) ∧
    (handler_run registry frames).length = frames.length := by
  refine ⟨rfl, fun m => rfl, ?_, ?_, ?_, handler_run_length registry frames hno⟩ <;>
    simp [handle_message, strFalsy, hname, hne]

theorem handler_c7_witness :
    handler_step ["front"] (.textInvalid "oops") =
      (some (.error none "invalid_json"), true) ∧
    handle_message ["front"] ⟨some "command", some "r1", some "get_state", some "back"⟩ =
      (.error (some "r1") (keyErrorStr "back"), []) :=
  have h := handler_c7 ["front"] "oops" "back" (some "r1")
    [.textInvalid "oops", .textMsg ⟨some "command", some "r1", some "get_state", some "back"⟩]
    (by decide) (by decide) (by decide)
  ⟨h.1, h.2.2.1⟩

theorem lookup_append_of_none {α β : Type} [BEq α] (l l2 : List (α × β)) (k : α)
    (h : l.lookup k = none) : (l ++ l2).lookup k = l2.lookup k := by
  induction l with
  | nil => rfl
  | cons p ps ih =>
    simp only [List.lookup] at h ⊢
    cases hk : k == p.1 with
    | true => rw [hk] at h; exact Option.noConfusion h
    | false =>
      rw [hk] at h
      simp only [List.cons_append, List.lookup, hk]
      exact ih h

/-- Claim C10: registering a lock under an already-used name raises
`ValueError` naming the duplicate and changes nothing — the registry and
the existing lock are kept, and the rejected lock gets no state listener;
a successful registration stores the lock with the manager's state
listener attached, makes it retrievable by `get_lock`, and adds its name
to `get_lock_names`. -/
theorem add_lock_c10 (locks : List (String × BleLock)) (lk : BleLock) :
    (∀ old, locks.lookup lk.lock_name = some old →
      add_lock locks lk = (some ("Duplicate lock_name: " ++ lk.lock_name), locks, lk) ∧
      get_lock locks lk.lock_name = some old) ∧
    (locks.lookup lk.lock_name = none →
      (add_lock locks lk).1 = none ∧
      (add_lock locks lk).2.2 = { lk with listeners := lk.listeners + 1 } ∧
      get_lock (add_lock locks lk).2.1 lk.lock_name =
        some { lk with listeners := lk.listeners + 1 } ∧
      lk.lock_name ∈ get_lock_names (add_lock locks lk).2.1) := by
  constructor
  · intro old hold
    rw [add_lock, if_pos (by simp [hold])]
    exact ⟨rfl, hold⟩
  · intro hnone
    rw [add_lock, if_neg (by simp [hnone])]
    refine ⟨rfl, rfl, ?_, by simp [get_lock_names]⟩
    rw [get_lock, lookup_append_of_none _ _ _ hnone]
    simp [List.lookup]

theorem add_lock_c10_witness :
    (add_lock [("front", ⟨"front", "s1", "a1", 1⟩)] ⟨"front", "s2", "a2", 0⟩).2.1 =
      [("front", ⟨"front", "s1", "a1", 1⟩)] ∧
    get_lock (add_lock [] (⟨"back", "s2", "a2", 0⟩ : BleLock)).2.1 "back" =
      some ⟨"back", "s2", "a2", 1⟩ :=
  ⟨((add_lock_c10 [("front", ⟨"front", "s1", "a1", 1⟩)] ⟨"front", "s2", "a2", 0⟩).1
      ⟨"front", "s1", "a1", 1⟩ (by decide)).1 ▸ rfl,
   ((add_lock_c10 [] ⟨"back", "s2", "a2", 0⟩).2 (by decide)).2.2.1⟩

theorem specBaseline_eq {s : AggState} (hinv : Inv s) (dev : String) :
    specBaseline s dev = observeBaseline s dev := by
  unfold specBaseline observeBaseline
  cases htr : s.pending_tasks dev with
  | some i =>
    have hp := hinv.tracked_pending dev (by simp [htr])
    cases hps : s.pending_state dev with
    | none => rw [hps] at hp; simp at hp
    | some p => simp [hps]
  | none =>
    rcases hinv.idle_sync dev htr with hn | he
    · simp [hn]
    · rw [he]
      cases hc : s.critical_state dev <;> simp

/-- Claim C3: an observation in which neither axis carries a stable value
differing from the comparison baseline (CandidateState if a settle is
pending for the device, CommittedState otherwise) is a no-op: the
aggregator state — candidate, committed, reason, task bookkeeping, event
and refresh logs — is exactly unchanged. -/
theorem observe_duplicate_noop_c3 (s : AggState) (hs : AggReachable s)
    (dev : String) (l : LockStatus) (d : DoorStatus)
    (hl : lock_changed l (specBaseline s dev).1 = false)
    (hd : door_changed d (specBaseline s dev).2 = false) :
    aggStep s (.observe dev l d) = some s := by
  have hinv := reachable_inv hs
  have hb := specBaseline_eq hinv dev
  rw [hb] at hl hd
  simp only [aggStep]
  rw [if_pos]
  exact ⟨by simp [hl], by simp [hd]⟩

theorem observe_duplicate_noop_c3_witness :
    aggStep aggLockPendingState (.observe "front" .locked .unknown) =
      some aggLockPendingState :=
  observe_duplicate_noop_c3 aggLockPendingState
    ⟨[.observe "front" .locked .unknown, .startTask 0], rfl⟩
    "front" .locked .unknown (by decide) (by decide)

/-- Claim C4: an observation that detects a change merges per axis into
CandidateState — an axis takes the incoming value exactly when that value
is stable, and keeps the baseline value otherwise — and sets the settle
reason to `door` whenever the door axis changed, and to `lock` only when
the lock axis changed and the door axis did not. -/
theorem observe_change_merge_c4 (s : AggState) (hs : AggReachable s)
    (dev : String) (l : LockStatus) (d : DoorStatus) (s' : AggState)
    (h : aggStep s (.observe dev l d) = some s')
    (hch : lock_changed l (specBaseline s dev).1 = true ∨
      door_changed d (specBaseline s dev).2 = true) :
    s'.pending_state dev = some
      (match stable_lock l with
       | some v => some v
       | none => (specBaseline s dev).1,
       match stable_door d with
       | some v => some v
       | none => (specBaseline s dev).2) ∧
    s'.pending_reason dev = some
      (if door_changed d (specBaseline s dev).2 then "door" else "lock") := by
  have hinv := reachable_inv hs
  have hb := specBaseline_eq hinv dev
  rw [hb]
  simp only [aggStep] at h
  rw [if_neg] at h
  · injection h with h
    subst h
    constructor
    · show upd s.pending_state dev _ dev = _
      rw [upd_same]
    · show upd s.pending_reason dev _ dev = _
      rw [upd_same]
  · rw [hb] at hch
    rcases hch with hc | hc <;> simp [hc]

theorem observe_change_merge_c4_witness :
    aggObservedState.pending_state "front" = some (some .locked, none) ∧
    aggObservedState.pending_reason "front" = some "lock" := by
  have h := observe_change_merge_c4 aggInit ⟨[], rfl⟩ "front" .locked .unknown
    aggObservedState rfl (Or.inl (by decide))
  exact ⟨by rw [h.1]; decide, by rw [h.2]; decide⟩




theorem cancelPhase_ne_debouncing (p : Phase) (d : ℚ) (r : Option String) :
    cancelPhase p ≠ .debouncing d r := by
  cases p <;> simp [cancelPhase]

theorem delayOK_init : DelayOK aggInit := by
  intro i t d r ht
  simp [aggInit] at ht

theorem aggStep_delayOK {s s' : AggState} {a : AggAct} (hd : DelayOK s)
    (h : aggStep s a = some s') : DelayOK s' := by
  cases a with
  | observe dev l d0 =>
    simp only [aggStep] at h
    split at h
    · injection h with h; exact h ▸ hd
    · injection h with h
      subst h
      intro i t d r ht hph
      rw [scheduleSettle_tasks] at ht
      dsimp only at ht
      by_cases hi : i = s.nextId
      · simp [hi] at ht
        rw [← ht] at hph
        exact absurd hph (by simp)
      · simp [hi] at ht
        by_cases hcanc : s.pending_tasks dev = some i
        · simp [hcanc] at ht
          obtain ⟨t0, ht0, ht0eq⟩ := ht
          rw [← ht0eq] at hph
          exact absurd hph (cancelPhase_ne_debouncing t0.phase d r)
        · simp [hcanc] at ht
          exact hd i t d r ht hph
  | startTask j =>
    simp only [aggStep] at h
    cases htj : s.tasks j with
    | none => rw [htj] at h; exact Option.noConfusion h
    | some tj =>
      rw [htj] at h
      dsimp only at h
      split at h
      case isFalse => exact Option.noConfusion h
      case isTrue hcr =>
        injection h with h
        subst h
        intro i t d r ht hph
        dsimp only at ht
        rw [setTaskPhase_eq] at ht
        by_cases hi : i = j
        · subst hi
          simp [htj] at ht
          rw [← ht] at hph
          simp at hph
          rw [← hph.2]
          exact hph.1.symm
        · simp [hi] at ht
          exact hd i t d r ht hph
  | wakeDebounce j =>
    simp only [aggStep] at h
    cases htj : s.tasks j with
    | none => rw [htj] at h; exact Option.noConfusion h
    | some tj =>
      rw [htj] at h
      dsimp only at h
      cases hph0 : tj.phase <;> rw [hph0] at h <;> dsimp only at h <;>
        try exact Option.noConfusion h
      injection h with h
      subst h
      intro i t d r ht hph
      dsimp only at ht
      rw [setTaskPhase_eq] at ht
      by_cases hi : i = j
      · subst hi
        simp [htj] at ht
        rw [← ht] at hph
        exact absurd hph (by simp)
      · simp [hi] at ht
        exact hd i t d r ht hph
  | wakeRefresh j =>
    simp only [aggStep] at h
    cases htj : s.tasks j with
    | none => rw [htj] at h; exact Option.noConfusion h
    | some tj =>
      rw [htj] at h
      dsimp only at h
      split at h
      case isFalse => exact Option.noConfusion h
      case isTrue hcr =>
        split at h <;> injection h with h <;> subst h <;>
          intro i t d r ht hph <;> dsimp only at ht <;>
          rw [setTaskPhase_eq] at ht <;> by_cases hi : i = j
        · subst hi
          simp [htj] at ht
          rw [← ht] at hph
          exact absurd hph (by simp)
        · simp [hi] at ht
          exact hd i t d r ht hph
        · subst hi
          simp [htj] at ht
          rw [← ht] at hph
          exact absurd hph (by simp)
        · simp [hi] at ht
          exact hd i t d r ht hph
  | unwind j =>
    simp only [aggStep] at h
    cases htj : s.tasks j with
    | none => rw [htj] at h; exact Option.noConfusion h
    | some tj =>
      rw [htj] at h
      dsimp only at h
      split at h
      case isFalse => exact Option.noConfusion h
      case isTrue hcr =>
        split at h <;> injection h with h <;> subst h <;>
          intro i t d r ht hph <;> dsimp only at ht <;>
          rw [setTaskPhase_eq] at ht <;> by_cases hi : i = j
        · subst hi
          simp [htj] at ht
          rw [← ht] at hph
          exact absurd hph (by simp)
        · simp [hi] at ht
          exact hd i t d r ht hph
        · subst hi
          simp [htj] at ht
          rw [← ht] at hph
          exact absurd hph (by simp)
        · simp [hi] at ht
          exact hd i t d r ht hph

theorem aggRun_delayOK {s s' : AggState} {acts : List AggAct} (hd : DelayOK s)
    (h : aggRun s acts = some s') : DelayOK s' := by
  induction acts generalizing s with
  | nil => injection h with h; exact h ▸ hd
  | cons a as ih =>
    simp only [aggRun] at h
    cases hstep : aggStep s a with
    | none => rw [hstep] at h; exact Option.noConfusion h
    | some s₁ =>
      rw [hstep] at h
      exact ih (aggStep_delayOK hd hstep) h

theorem reachable_delayOK {s : AggState} (h : AggReachable s) : DelayOK s := by
  obtain ⟨acts, hacts⟩ := h
  exact aggRun_delayOK delayOK_init hacts

/-- Claim C5: a settle task entering its debounce sleep uses the door
delay (0.5s) exactly when the pending reason it read at the start of its
body was `door`, and the lock delay (2.0s) otherwise; consequently, in
the concrete run where a door change arrives while a lock-reason settle
is sleeping, the replacement task sleeps the shorter door delay. -/
theorem settle_delay_c5 (s : AggState) (hs : AggReachable s)
    (i : Nat) (t : TaskRec) (d : ℚ) (r : Option String)
    (ht : s.tasks i = some t) (hph : t.phase = .debouncing d r) :
    d = (if r = some "door" then DOOR_DEBOUNCE_SECONDS
         else LOCK_DEBOUNCE_SECONDS) ∧
    DOOR_DEBOUNCE_SECONDS < LOCK_DEBOUNCE_SECONDS ∧
    (∀ (s₀ s₀' : AggState) (j : Nat) (t₀ : TaskRec), s₀.tasks j = some t₀ →
      aggStep s₀ (.startTask j) = some s₀' →
      s₀'.tasks j = some ⟨t₀.dev, .debouncing
        (settleDelay (s₀.pending_reason t₀.dev)) (s₀.pending_reason t₀.dev)⟩) ∧
    aggLockPendingState.tasks 0 =
      some ⟨"front", .debouncing LOCK_DEBOUNCE_SECONDS (some "lock")⟩ ∧
    aggDoorReplaceState.tasks 0 = some ⟨"front", .cancelling⟩ ∧
    aggDoorReplaceState.tasks 1 =
      some ⟨"front", .debouncing DOOR_DEBOUNCE_SECONDS (some "door")⟩ := by
  refine ⟨reachable_delayOK hs i t d r ht hph, by norm_num [DOOR_DEBOUNCE_SECONDS,
    LOCK_DEBOUNCE_SECONDS], ?_, ?_, ?_, ?_⟩
  · intro s₀ s₀' j t₀ ht₀ hstep
    simp only [aggStep] at hstep
    rw [ht₀] at hstep
    dsimp only at hstep
    split at hstep
    case isFalse => exact Option.noConfusion hstep
    case isTrue hcr =>
      injection hstep with hstep
      subst hstep
      dsimp only
      rw [setTaskPhase_eq]
      simp [ht₀]
  · show aggLockPendingState.tasks 0 = _
    simp [aggLockPendingState, aggRun, aggStep, aggInit, observeBaseline,
      stable_lock, stable_door, lock_changed, door_changed, upd,
      scheduleSettle, cancelTracked, setTaskPhase, settleDelay]
  · show aggDoorReplaceState.tasks 0 = _
    simp [aggDoorReplaceState, aggRun, aggStep, aggInit, observeBaseline,
      stable_lock, stable_door, lock_changed, door_changed, upd,
      scheduleSettle, cancelTracked, setTaskPhase, settleDelay, cancelPhase]
  · show aggDoorReplaceState.tasks 1 = _
    simp [aggDoorReplaceState, aggRun, aggStep, aggInit, observeBaseline,
      stable_lock, stable_door, lock_changed, door_changed, upd,
      scheduleSettle, cancelTracked, setTaskPhase, settleDelay, cancelPhase]

theorem settle_delay_c5_witness :
    settleDelay (some "door") =
      (if (some "door" : Option String) = some "door" then DOOR_DEBOUNCE_SECONDS
       else LOCK_DEBOUNCE_SECONDS) ∧
    DOOR_DEBOUNCE_SECONDS < LOCK_DEBOUNCE_SECONDS :=
  have h := settle_delay_c5 aggDoorReplaceState
    ⟨[.observe "front" .locked .unknown, .startTask 0,
      .observe "front" .locked .opened, .startTask 1], rfl⟩
    1 ⟨"front", .debouncing (settleDelay (some "door")) (some "door")⟩
    (settleDelay (some "door")) (some "door") rfl rfl
  ⟨h.1, h.2.1⟩


/-- Claim C8: in every reachable state at most one live settle task exists
per device and it is exactly the tracked one; `_schedule_state_settle`
cancels the previously tracked (non-done) task and installs the new one as
tracked; and the exit cleanup of a task that is no longer the tracked one
for its device leaves the tracking and reason bookkeeping untouched. -/
theorem settle_tracking_c8 (s : AggState) (hs : AggReachable s) :
    (∀ i j ti tj, s.tasks i = some ti → s.tasks j = some tj → ti.dev = tj.dev →
      ti.phase.isLive = true → tj.phase.isLive = true → i = j) ∧
    (∀ i t, s.tasks i = some t → t.phase.isLive = true →
      s.pending_tasks t.dev = some i) ∧
    (∀ dev, (scheduleSettle s dev).pending_tasks dev = some s.nextId ∧
      (∀ j tj, s.pending_tasks dev = some j → s.tasks j = some tj →
        (scheduleSettle s dev).tasks j =
          some ⟨tj.dev, cancelPhase tj.phase⟩)) ∧
    (∀ i t s', s.tasks i = some t → s.pending_tasks t.dev ≠ some i →
      aggStep s (.unwind i) = some s' →
      s'.pending_tasks = s.pending_tasks ∧ s'.pending_reason = s.pending_reason) := by
  have hinv := reachable_inv hs
  refine ⟨?_, hinv.live_tracked, ?_, ?_⟩
  · intro i j ti tj hti htj hdev hli hlj
    have h1 := hinv.live_tracked i ti hti hli
    have h2 := hinv.live_tracked j tj htj hlj
    rw [hdev, h2] at h1
    injection h1 with h1
    exact h1.symm
  · intro dev
    constructor
    · show upd s.pending_tasks dev (some s.nextId) dev = some s.nextId
      exact upd_same _ _ _
    · intro j tj htr htj
      have hj : j ≠ s.nextId := by
        intro he
        rw [hinv.fresh j (by omega)] at htj
        exact Option.noConfusion htj
      rw [scheduleSettle_tasks]
      simp [hj, htr, htj]
  · intro i t s' ht hntr h
    simp only [aggStep] at h
    rw [ht] at h
    dsimp only at h
    by_cases hph : t.phase = .cancelling
    · rw [if_pos hph, if_neg hntr] at h
      injection h with h
      subst h
      exact ⟨rfl, rfl⟩
    · rw [if_neg hph] at h
      exact Option.noConfusion h

theorem settle_tracking_c8_witness :
    aggDoorReplaceState.pending_tasks "front" = some 1 :=
  (settle_tracking_c8 aggDoorReplaceState
    ⟨[.observe "front" .locked .unknown, .startTask 0,
      .observe "front" .locked .opened, .startTask 1], rfl⟩).2.1
    1 ⟨"front", .debouncing (settleDelay (some "door")) (some "door")⟩ rfl rfl

theorem cancelPhase_dead {p : Phase} (h : p = .cancelling ∨ p = .done) :
    cancelPhase p = .cancelling ∨ cancelPhase p = .done := by
  rcases h with h | h <;> rw [h] <;> simp [cancelPhase]

theorem aggStep_cancelled_frozen {s s' : AggState} {a : AggAct} {i : Nat}
    (hinv : Inv s) (hc : taskCancelled s i) (h : aggStep s a = some s') :
    taskCancelled s' i ∧ eventsOf s' i = eventsOf s i ∧
      refreshesOf s' i = refreshesOf s i := by
  obtain ⟨t, ht, hdead⟩ := hc
  have hlt : i < s.nextId := by
    by_contra hge
    rw [hinv.fresh i (by omega)] at ht
    exact Option.noConfusion ht
  have hne_deb : ∀ d r, t.phase ≠ Phase.debouncing d r := by
    intro d r hcon
    rcases hdead with hd0 | hd0 <;> rw [hd0] at hcon <;> exact Phase.noConfusion hcon
  cases a with
  | observe dev l d0 =>
    simp only [aggStep] at h
    split at h
    · injection h with h; subst h; exact ⟨⟨t, ht, hdead⟩, rfl, rfl⟩
    · injection h with h
      subst h
      refine ⟨?_, rfl, rfl⟩
      by_cases hcanc : s.pending_tasks dev = some i
      · refine ⟨⟨t.dev, cancelPhase t.phase⟩, ?_, cancelPhase_dead hdead⟩
        rw [scheduleSettle_tasks]
        simp [Nat.ne_of_lt hlt, hcanc, ht]
      · refine ⟨t, ?_, hdead⟩
        rw [scheduleSettle_tasks]
        simp [Nat.ne_of_lt hlt, hcanc, ht]
  | startTask j =>
    simp only [aggStep] at h
    cases htj : s.tasks j with
    | none => rw [htj] at h; exact Option.noConfusion h
    | some tj =>
      rw [htj] at h
      dsimp only at h
      split at h
      case isFalse => exact Option.noConfusion h
      case isTrue hcr =>
        injection h with h
        subst h
        have hji : i ≠ j := by
          intro he
          rw [he, htj] at ht
          injection ht with ht
          rw [ht] at hcr
          rcases hdead with hd0 | hd0 <;> rw [hd0] at hcr <;> exact Phase.noConfusion hcr
        refine ⟨⟨t, ?_, hdead⟩, rfl, rfl⟩
        dsimp only
        rw [setTaskPhase_eq]
        simp [hji, ht]
  | wakeDebounce j =>
    simp only [aggStep] at h
    cases htj : s.tasks j with
    | none => rw [htj] at h; exact Option.noConfusion h
    | some tj =>
      rw [htj] at h
      dsimp only at h
      cases hph0 : tj.phase <;> rw [hph0] at h <;> dsimp only at h <;>
        try exact Option.noConfusion h
      injection h with h
      subst h
      have hji : i ≠ j := by
        intro he
        rw [he, htj] at ht
        injection ht with ht
        rw [ht] at hph0
        exact hne_deb _ _ hph0
      refine ⟨⟨t, ?_, hdead⟩, ?_, rfl⟩
      · dsimp only
        rw [setTaskPhase_eq]
        simp [hji, ht]
      · show List.filter _ (s.events ++ _) = List.filter _ s.events
        rw [List.filter_append]
        simp [Ne.symm hji]
  | wakeRefresh j =>
    simp only [aggStep] at h
    cases htj : s.tasks j with
    | none => rw [htj] at h; exact Option.noConfusion h
    | some tj =>
      rw [htj] at h
      dsimp only at h
      split at h
      case isFalse => exact Option.noConfusion h
      case isTrue hcr =>
        have hji : i ≠ j := by
          intro he
          rw [he, htj] at ht
          injection ht with ht
          rw [ht] at hcr
          rcases hdead with hd0 | hd0 <;> rw [hd0] at hcr <;> exact Phase.noConfusion hcr
        split at h <;> injection h with h <;> subst h <;>
          refine ⟨⟨t, ?_, hdead⟩, rfl, ?_⟩
        · dsimp only
          rw [setTaskPhase_eq]
          simp [hji, ht]
        · show List.filter _ (s.refreshes ++ _) = List.filter _ s.refreshes
          rw [List.filter_append]
          simp [Ne.symm hji]
        · dsimp only
          rw [setTaskPhase_eq]
          simp [hji, ht]
        · show List.filter _ (s.refreshes ++ _) = List.filter _ s.refreshes
          rw [List.filter_append]
          simp [Ne.symm hji]
  | unwind j =>
    simp only [aggStep] at h
    cases htj : s.tasks j with
    | none => rw [htj] at h; exact Option.noConfusion h
    | some tj =>
      rw [htj] at h
      dsimp only at h
      split at h
      case isFalse => exact Option.noConfusion h
      case isTrue hcr =>
        by_cases hji : i = j
        · subst hji
          split at h <;> injection h with h <;> subst h <;>
            refine ⟨⟨⟨tj.dev, .done⟩, ?_, Or.inr rfl⟩, rfl, rfl⟩ <;>
            dsimp only <;> rw [setTaskPhase_eq] <;> simp [htj]
        · split at h <;> injection h with h <;> subst h <;>
            refine ⟨⟨t, ?_, hdead⟩, rfl, rfl⟩ <;>
            dsimp only <;> rw [setTaskPhase_eq] <;> simp [hji, ht]

theorem aggRun_cancelled_frozen {s s' : AggState} {acts : List AggAct} {i : Nat}
    (hinv : Inv s) (hc : taskCancelled s i) (h : aggRun s acts = some s') :
    taskCancelled s' i ∧ eventsOf s' i = eventsOf s i ∧
      refreshesOf s' i = refreshesOf s i := by
  induction acts generalizing s with
  | nil => injection h with h; subst h; exact ⟨hc, rfl, rfl⟩
  | cons a as ih =>
    simp only [aggRun] at h
    cases hstep : aggStep s a with
    | none => rw [hstep] at h; exact Option.noConfusion h
    | some s₁ =>
      rw [hstep] at h
      obtain ⟨hc₁, he₁, hr₁⟩ := aggStep_cancelled_frozen hinv hc hstep
      obtain ⟨hc₂, he₂, hr₂⟩ := ih (aggStep_inv hinv hstep) hc₁ h
      exact ⟨hc₂, he₂.trans he₁, hr₂.trans hr₁⟩

/-- Claim C9: a settle task that has been cancelled produces no further
side effects — from any reachable state onward its attributed settle
events and reconciliation refreshes never grow (and it stays cancelled
or finished) — and, per device, CommittedState changes only as the commit
step of a settle task that completed its debounce sleep uncancelled. -/
theorem cancelled_no_effects_c9 :
    (∀ s i acts s', AggReachable s → taskCancelled s i → aggRun s acts = some s' →
      taskCancelled s' i ∧ eventsOf s' i = eventsOf s i ∧
        refreshesOf s' i = refreshesOf s i) ∧
    (∀ s a s' dev, aggStep s a = some s' →
      s'.critical_state dev ≠ s.critical_state dev →
      ∃ i t delay r, a = .wakeDebounce i ∧ s.tasks i = some t ∧ t.dev = dev ∧
        t.phase = .debouncing delay r) := by
  constructor
  · intro s i acts s' hs hc h
    exact aggRun_cancelled_frozen (reachable_inv hs) hc h
  · intro s a s' dev h hne
    cases a with
    | observe dev0 l d0 =>
      simp only [aggStep] at h
      split at h
      · injection h with h; subst h; exact absurd rfl hne
      · injection h with h; subst h; exact absurd rfl hne
    | startTask j =>
      simp only [aggStep] at h
      cases htj : s.tasks j with
      | none => rw [htj] at h; exact Option.noConfusion h
      | some tj =>
        rw [htj] at h
        dsimp only at h
        split at h
        case isFalse => exact Option.noConfusion h
        case isTrue hcr =>
          injection h with h; subst h; exact absurd rfl hne
    | wakeDebounce j =>
      simp only [aggStep] at h
      cases htj : s.tasks j with
      | none => rw [htj] at h; exact Option.noConfusion h
      | some tj =>
        rw [htj] at h
        dsimp only at h
        cases hph0 : tj.phase <;> rw [hph0] at h <;> dsimp only at h <;>
          try exact Option.noConfusion h
        injection h with h
        subst h
        by_cases hdev : dev = tj.dev
        · exact ⟨j, tj, _, _, rfl, htj, hdev.symm, hph0⟩
        · refine absurd ?_ hne
          show upd s.critical_state tj.dev _ dev = s.critical_state dev
          exact upd_ne _ _ hdev
    | wakeRefresh j =>
      simp only [aggStep] at h
      cases htj : s.tasks j with
      | none => rw [htj] at h; exact Option.noConfusion h
      | some tj =>
        rw [htj] at h
        dsimp only at h
        split at h
        case isFalse => exact Option.noConfusion h
        case isTrue hcr =>
          split at h <;> injection h with h <;> subst h <;> exact absurd rfl hne
    | unwind j =>
      simp only [aggStep] at h
      cases htj : s.tasks j with
      | none => rw [htj] at h; exact Option.noConfusion h
      | some tj =>
        rw [htj] at h
        dsimp only at h
        split at h
        case isFalse => exact Option.noConfusion h
        case isTrue hcr =>
          split at h <;> injection h with h <;> subst h <;> exact absurd rfl hne




theorem cancelled_no_effects_c9_witness :
    (taskCancelled aggCommitState 0 ∧
      eventsOf aggCommitState 0 = eventsOf aggDoorReplaceState 0 ∧
      refreshesOf aggCommitState 0 = refreshesOf aggDoorReplaceState 0) ∧
    (∃ i t delay r, AggAct.wakeDebounce 1 = .wakeDebounce i ∧
      aggDoorReplaceState.tasks i = some t ∧ t.dev = "front" ∧
      t.phase = .debouncing delay r) := by
  constructor
  · exact cancelled_no_effects_c9.1 aggDoorReplaceState 0 [.wakeDebounce 1]
      aggCommitState
      ⟨[.observe "front" .locked .unknown, .startTask 0,
        .observe "front" .locked .opened, .startTask 1], rfl⟩
      ⟨⟨"front", .cancelling⟩, by decide, Or.inl rfl⟩ rfl
  · exact cancelled_no_effects_c9.2 aggDoorReplaceState (.wakeDebounce 1)
      aggCommitState "front" rfl (by decide)

end BleWs
